import Mathlib

/-!
Verification development for the AShareData factor-compositor subsystem
(src/AShareData/FactorCompositor.py).

The compositors are embedded shallowly: prices and factors are rationals,
calendar dates are natural numbers (abstract day indices), the table store
is a list of written rows, and each update procedure is a pure function
from its inputs (the upstream tables it reads) to the list of rows it
writes.  Parts of the repository that FactorCompositor.py relies on but
whose sources are not present (the trading calendar, the database
interface, DateUtils.ReportingDate, utils.DateCache, the pickle/zip
serialization) are modelled from the specification; each such definition
carries a doc comment starting with "Modelled from the spec:".
-/

set_option maxHeartbeats 1000000

/-- Association-list lookup keyed by decidable equality; models reading one
value of a keyed store (a python dict access that may miss). -/
def alookup {κ ν : Type} [DecidableEq κ] (k : κ) : List (κ × ν) → Option ν
  | [] => none
  | p :: ps => if p.1 = k then some p.2 else alookup k ps

/-- Association-list upsert; models a python dict assignment
(overwrite the existing binding for the key, else append a new one). -/
def aupsert {κ ν : Type} [DecidableEq κ] (k : κ) (v : ν) : List (κ × ν) → List (κ × ν)
  | [] => [(k, v)]
  | p :: ps => if p.1 = k then (k, v) :: ps else p :: aupsert k v ps

/-- Modelled from the spec: the Table Store contract
latest_timestamp(table) with a default used by _check_db_timestamp — the
latest date present among the stored rows, or the supplied default when
the table holds nothing. -/
def latestDate (dates : List ℕ) (dflt : ℕ) : ℕ :=
  match dates with
  | [] => dflt
  | _ => dates.foldr max 0

namespace ConstLimitStockFactorCompositor

/-- A daily price row of the 股票日行情 table as read by the compositor:
(ID, 最高价, 最低价). -/
abbrev PriceRow : Type := String × ℚ × ℚ

/-- The 最高价 column value for a given ticker in a day's rows
(pandas .loc alignment by the ID level of the index). -/
def lookupHigh : List PriceRow → String → Option ℚ
  | [], _ => none
  | r :: rs, t => if r.1 = t then some r.2.1 else lookupHigh rs t

/-- One iteration of the date loop of ConstLimitStockFactorCompositor.update
(source lines 70–89): tickers with 最高价 = 最低价 that are not paused are
the target stocks; today's and the previous day's 最高价 are both multiplied
by the adjustment factor at (date, ticker) (the source indexes adj_factor at
the current date for both sides); tickers with a missing previous price are
dropped (dropna) and so are zero differences; when strictly more than one
difference remains, each surviving ticker is labeled +1 (涨跌停 up) when the
difference is positive and -1 when negative, and nothing is written
otherwise. -/
def processDate (data preData : List PriceRow) (paused : List String)
    (adj : String → ℚ) : List (String × Int) :=
  let noPriceMoveTickers := (data.filter fun r => r.2.1 = r.2.2).map fun r => r.1
  let targetStocks := noPriceMoveTickers.filter fun t => ¬ t ∈ paused
  let diffPrice := targetStocks.filterMap fun t =>
    match lookupHigh data t, lookupHigh preData t with
    | some h, some ph => some (t, h * adj t - ph * adj t)
    | _, _ => none
  let diffPrice := diffPrice.filter fun p => p.2 ≠ 0
  if 1 < diffPrice.length then
    diffPrice.map fun p => (p.1, if 0 < p.2 then (1 : Int) else -1)
  else []

/-- The upstream world read by ConstLimitStockFactorCompositor.update.
trading models the trading-calendar service (Modelled from the spec:
an ordered sequence of valid trading dates); data, paused and adj model
the 股票日行情 table, the paused-stock selector and the adjustment-factor
reader at each date; defaultStart models dt.date(1999, 5, 4) and priceEnd
the latest timestamp of the price table. -/
structure World where
  trading : List ℕ
  defaultStart : ℕ
  priceEnd : ℕ
  data : ℕ → List PriceRow
  paused : ℕ → List String
  adj : ℕ → String → ℚ

/-- A written row of the 一字涨跌停 table: (DateTime, ID, 涨跌停). -/
abbrev Row : Type := ℕ × String × Int

/-- The date loop of update, threading pre_data through the iterations:
the first component of each emitted row is the processed date. -/
def go (w : World) : ℕ → List ℕ → List Row
  | _, [] => []
  | pre, d :: ds =>
      ((processDate (w.data d) (w.data pre) (w.paused d) (w.adj d)).map
        fun p => (d, p.1, p.2)) ++ go w d ds

/-- ConstLimitStockFactorCompositor.update (source lines 57–92) as the list
of rows it inserts into 一字涨跌停: the start date is the target table's
watermark (or the 1999-05-04 default), the processed dates are the trading
dates in [start, priceEnd] with the first kept only as the previous date,
and pre_data is initially read at the start date. -/
def update (w : World) (table : List Row) : List Row :=
  let start := latestDate (table.map fun r => r.1) w.defaultStart
  let dates := w.trading.filter fun x => start ≤ x ∧ x ≤ w.priceEnd
  match dates with
  | [] => []
  | _ :: rest => go w start rest

/-- Modelled from the spec: the qualifying entities of one date per the
specification's words — daily high equals daily low, not suspended that
day, and the adjusted price (each day's price under its own day's
adjustment factor) differs from the previous trading day's adjusted
price.  Kept separate from processDate for comparison with the source. -/
def spec_qualifying (data preData : List PriceRow) (paused : List String)
    (adj adjPre : String → ℚ) : List String :=
  (((data.filter fun r => r.2.1 = r.2.2).map fun r => r.1).filter
    fun t => ¬ t ∈ paused).filter fun t =>
      (lookupHigh data t).isSome ∧ (lookupHigh preData t).isSome ∧
        ((lookupHigh data t).getD 0) * adj t ≠ ((lookupHigh preData t).getD 0) * adjPre t

end ConstLimitStockFactorCompositor

namespace FundAdjFactorCompositor

/-- Cumulative product with an accumulator, mirroring pandas cumprod on the
per-event multiplier series. -/
def cumProdAux (acc : ℚ) : List ℚ → List ℚ
  | [] => []
  | x :: xs => (acc * x) :: cumProdAux (acc * x) xs

/-- pandas Series.cumprod: element k is the product of the first k+1
elements. -/
def cumprod (l : List ℚ) : List ℚ := cumProdAux 1 l

/-- FundAdjFactorCompositor.compute_adj_factor (source lines 105–131) as the
list of (DateTime, 复权因子) rows it upserts for one ticker.  offset1 models
the trading calendar's offset(date, 1) (Modelled from the spec: the trading
day immediately following a date); listDate is the fund's listing date;
divInfo is the 公募基金分红 series for the ticker as (record date,
distribution per unit) in chronological order; price is the per-date unit
price read from the fund price table (净值 or 收盘价), possibly missing.
The listing-date seed factor 1 is upserted first (source line 112, before
the dividend data is examined); if there is no dividend data the procedure
returns; if the number of retrieved price points differs from the number of
distribution events it warns and returns; otherwise the cumulative products
of price/(price - distribution) are upserted, re-indexed to the trading day
after each event date. -/
def compute_adj_factor (offset1 : ℕ → ℕ) (listDate : ℕ)
    (divInfo : List (ℕ × ℚ)) (price : ℕ → Option ℚ) : List (ℕ × ℚ) :=
  let seed : List (ℕ × ℚ) := [(listDate, 1)]
  if divInfo.isEmpty then seed
  else
    let divDates := divInfo.map fun r => r.1
    let afterDates := divDates.map offset1
    let priceData := divDates.filterMap price
    if priceData.length ≠ divInfo.length then seed
    else
      let ratios := List.zipWith (fun p d => p / (p - d)) priceData
        (divInfo.map fun r => r.2)
      seed ++ List.zip afterDates (cumprod ratios)

end FundAdjFactorCompositor

namespace IndexCompositor

/-- IndexCompositor._compute_ret (source lines 169–185): each constituent's
simple return is (close × adj)/(pre_close × pre_adj) − 1, the raw weight is
prior-day units × prior close, weights are normalized by their sum, and the
day's index return is the dot product of the return vector with the
normalized weight vector. -/
def compute_ret (ids : List String)
    (preUnits preClose preAdj close adj : String → ℚ) : ℚ :=
  let stockDailyRet := fun i => (close i * adj i) / (preClose i * preAdj i) - 1
  let weightRaw := fun i => preUnits i * preClose i
  let total := (ids.map weightRaw).sum
  (ids.map fun i => stockDailyRet i * (weightRaw i / total)).sum

/-- The upstream world read by IndexCompositor.update for one index policy:
trading models the calendar, policyStart the policy's start date, priceEnd
the latest 股票日行情 timestamp, tickers the policy's constituent selector
per date, units/close/adj the unit-holding, close-price and
adjustment-factor readers, and offsetPrev the calendar's offset(date, -1)
(Modelled from the spec: the previous trading day). -/
structure IWorld where
  trading : List ℕ
  policyStart : ℕ
  priceEnd : ℕ
  tickers : ℕ → List String
  units : ℕ → String → ℚ
  close : ℕ → String → ℚ
  adj : ℕ → String → ℚ
  offsetPrev : ℕ → ℕ

/-- The scalar return computed for one date by _compute_ret, with the
previous-day data taken at offsetPrev date. -/
def ret_at (w : IWorld) (d : ℕ) : ℚ :=
  compute_ret (w.tickers d) (w.units (w.offsetPrev d)) (w.close (w.offsetPrev d))
    (w.adj (w.offsetPrev d)) (w.close d) (w.adj d)

/-- The dates processed by IndexCompositor.update given the stored rows of
自合成指数 for this index's ticker: the trading dates from the per-index
watermark (or the policy start date) through the latest price date,
the first date included (the source does not drop it). -/
def updateDates (w : IWorld) (table : List (ℕ × ℚ)) : List ℕ :=
  let start := latestDate (table.map fun r => r.1) w.policyStart
  w.trading.filter fun x => start ≤ x ∧ x ≤ w.priceEnd

/-- IndexCompositor.update (source lines 148–167) as the list of
(DateTime, 收益率) rows it upserts under the index's ticker: one scalar
return per processed date. -/
def update (w : IWorld) (table : List (ℕ × ℚ)) : List (ℕ × ℚ) :=
  (updateDates w table).map fun d => (d, ret_at w d)

/-- Modelled from the spec: one constituent's simple return,
(close × adj)/(prev_close × prev_adj) − 1.  Kept separate from compute_ret
for comparison with the source. -/
def spec_ret (preClose preAdj close adj : String → ℚ) (i : String) : ℚ :=
  (close i * adj i) / (preClose i * preAdj i) - 1

/-- Modelled from the spec: the weight of constituent i — prior-day units
times prior close, normalized by the sum over the current constituent
set. -/
def spec_weight (ids : List String) (preUnits preClose : String → ℚ)
    (i : String) : ℚ :=
  (preUnits i * preClose i) / (ids.map fun j => preUnits j * preClose j).sum

/-- Modelled from the spec: the sum of the normalized weights over the
constituent set. -/
def spec_weight_sum (ids : List String) (preUnits preClose : String → ℚ) : ℚ :=
  (ids.map (spec_weight ids preUnits preClose)).sum

/-- Modelled from the spec: the index return as the dot product of the
weight vector with the constituent-return vector. -/
def spec_index_ret (ids : List String)
    (preUnits preClose preAdj close adj : String → ℚ) : ℚ :=
  (ids.map fun i =>
    spec_weight ids preUnits preClose i * spec_ret preClose preAdj close adj i).sum

end IndexCompositor

/-- A fiscal report period (报告期) at quarterly granularity: calendar year
and quarter (-03-31, -06-30, -09-30, -12-31 as quarters 0..3). -/
structure RDate where
  y : ℕ
  q : Fin 4
deriving DecidableEq

namespace ReportingDate

/-- Modelled from the spec: DateUtils.ReportingDate.qoq_date — the
quarter-over-quarter predecessor of a report period
(qoq_date(2020-09-30) = 2020-06-30). -/
def qoq_date (d : RDate) : RDate :=
  if d.q = (0 : Fin 4) then { y := d.y - 1, q := 3 } else { y := d.y, q := d.q - 1 }

/-- Modelled from the spec: DateUtils.ReportingDate.yoy_date — the same
report period one year earlier (yoy_date(2020-09-30) = 2019-09-30). -/
def yoy_date (d : RDate) : RDate := { y := d.y - 1, q := d.q }

/-- Modelled from the spec: DateUtils.ReportingDate.yearly_dates_offset —
the annual (year-end) report period n years back
(yearly_dates_offset(2020-12-31, 3) = 2017-12-31); the source calls it
with the default offset and with 3 and 5. -/
def yearly_dates_offset (d : RDate) (n : ℕ) : RDate := { y := d.y - n, q := 3 }

end ReportingDate

/-- Modelled from the spec: utils.DateCache, whose source is not under
src/; its constructor is applied positionally at FactorCompositor.py line
264 as DateCache(current, q1, q2, y1, q4, q5, y3, y5), each component an
index value (announcement DateTime, 报告期) of the statement resolved for
that slot, or None. -/
structure DateCache where
  current : ℕ × RDate
  q1 : Option (ℕ × RDate)
  q2 : Option (ℕ × RDate)
  y1 : Option (ℕ × RDate)
  q4 : Option (ℕ × RDate)
  q5 : Option (ℕ × RDate)
  y3 : Option (ℕ × RDate)
  y5 : Option (ℕ × RDate)
deriving DecidableEq

namespace AccountingDateCacheCompositor

/-- One stored statement row of 合并资产负债表 for one ticker, as the index
pair the compositor uses: (announcement DateTime, 报告期). -/
abbrev StmtRow : Type := ℕ × RDate

/-- The exact-match related-period lookup of the source (lines 231, 235,
239, ...): among the rows visible as of the event date, keep those whose
报告期 equals the target and take the last (most recent) one. -/
def lookupRP (info : List StmtRow) (target : RDate) : Option StmtRow :=
  (info.filter fun r => r.2 = target).getLast?

/-- The entry computed for one (ticker, event date) by the source's inner
loop (lines 224–264): info is the statement history truncated to
announcement dates ≤ the event date, the current statement is its last row,
and the q1/q2/y1/q4/q5/y3/y5 slots are exact-match lookups of the prior
quarter, the prior-prior quarter, the year-end one year back, the year-ago
same period, again the prior quarter (the source computes q5 with the same
qoq_date(report_date) lookup as q1), and the year-ends three and five years
back.  None when the history as of the date is empty (then the source
would have had no new event at this date at all). -/
def computeEntry (rows : List StmtRow) (date : ℕ) : Option DateCache :=
  let info := rows.filter fun r => r.1 ≤ date
  info.getLast?.map fun newest =>
    let rp := newest.2
    { current := newest
      q1 := lookupRP info (ReportingDate.qoq_date rp)
      q2 := lookupRP info (ReportingDate.qoq_date (ReportingDate.qoq_date rp))
      y1 := lookupRP info (ReportingDate.yearly_dates_offset rp 1)
      q4 := lookupRP info (ReportingDate.yoy_date rp)
      q5 := lookupRP info (ReportingDate.qoq_date rp)
      y3 := lookupRP info (ReportingDate.yearly_dates_offset rp 3)
      y5 := lookupRP info (ReportingDate.yearly_dates_offset rp 5) }

/-- The persisted cache structure: cache['DateTime'] is the per-ticker
watermark map and cache['cache_date'] the SortedDict of entries keyed by
(ticker, event date); both are modelled as association lists with python
dict upsert semantics. -/
structure Cache where
  watermarks : List (String × ℕ)
  entries : List ((String × ℕ) × DateCache)
deriving DecidableEq

/-- The new reporting-event dates of one ticker given its cached watermark
(source lines 220–222): the announcement dates strictly after the
watermark, de-duplicated; dt.datetime(1900, 1, 1) is modelled as day 0. -/
def newEventDates (rows : List StmtRow) (cacheDate : ℕ) : List ℕ :=
  ((rows.map fun r => r.1).filter fun d => cacheDate < d).dedup

/-- One iteration of the per-date loop: compute the entry for a new event
date and store it under the key (ticker, event date). -/
def entryStep (rows : List StmtRow) (ticker : String) (c : Cache) (d : ℕ) : Cache :=
  match computeEntry rows d with
  | some e => { c with entries := aupsert (ticker, d) e c.entries }
  | none => c

/-- The per-ticker body of AccountingDateCacheCompositor.update (source
lines 212–266): if the store has statements newer than the ticker's cached
watermark, compute and upsert an entry for every new event date, then set
the ticker's watermark to the last new date (the source indexes
new_dates[-1]; when there is no new date the source would fault, modelled
as leaving the watermark unchanged).  calendar.offset(date, 0) on an event
date is modelled as the identity (Modelled from the spec: offsetting a
trading date by 0 trading days). -/
def updateTicker (rows : List StmtRow) (dbDate : ℕ) (ticker : String)
    (cache : Cache) : Cache :=
  let cacheDate := (alookup ticker cache.watermarks).getD 0
  if cacheDate < dbDate then
    let nd := newEventDates rows cacheDate
    let cache' := nd.foldl (entryStep rows ticker) cache
    match nd.getLast? with
    | some last => { cache' with watermarks := aupsert ticker last cache'.watermarks }
    | none => cache'
  else cache

/-- AccountingDateCacheCompositor.update over all tickers of the statement
table: db gives, per ticker, its statement rows (in announcement-date
order) and the store's latest timestamp for that ticker. -/
def update (db : String → List StmtRow × ℕ) (tickers : List String)
    (cache : Cache) : Cache :=
  tickers.foldl (fun c t => updateTicker (db t).1 (db t).2 t c) cache

/-- Modelled from the spec: the five related report periods the
specification names for a cache entry — prior quarter, prior-prior
quarter, year-ago same period, 3-years-ago and 5-years-ago.  Kept separate
from computeEntry for comparison with the source. -/
def specRelatedTargets (rp : RDate) : List RDate :=
  [ReportingDate.qoq_date rp,
   ReportingDate.qoq_date (ReportingDate.qoq_date rp),
   ReportingDate.yoy_date rp,
   ReportingDate.yearly_dates_offset rp 3,
   ReportingDate.yearly_dates_offset rp 5]

/-- Modelled from the spec: the related components a cache entry would hold
per the specification's words — exactly the five related periods, each
resolved by exact-match lookup against the history as of the event date. -/
def specRelatedResolved (rows : List StmtRow) (date : ℕ) : List (Option StmtRow) :=
  let info := rows.filter fun r => r.1 ≤ date
  match info.getLast? with
  | none => []
  | some newest => (specRelatedTargets newest.2).map (lookupRP info)

/-- The related components actually stored in a DateCache entry, in the
order of the constructor call at source line 264. -/
def storedRelated (e : DateCache) : List (Option StmtRow) :=
  [e.q1, e.q2, e.y1, e.q4, e.q5, e.y3, e.y5]

end AccountingDateCacheCompositor

namespace AccountingDateCacheCompositor

/-- Modelled from the spec: a token of the serialized blob inside the
compressed archive — the pickle encoding itself is not under src/, so the
blob is modelled as a flat token stream with natural-number and string
tokens. -/
inductive Tok where
  | nat (n : ℕ)
  | str (s : String)
deriving DecidableEq

/-- Serialize a report period as two number tokens. -/
def encRDate (d : RDate) : List Tok := [Tok.nat d.y, Tok.nat d.q.val]

/-- Parse a report period. -/
def decRDate : List Tok → Option (RDate × List Tok)
  | Tok.nat y :: Tok.nat qv :: rest =>
      if h : qv < 4 then some ({ y := y, q := ⟨qv, h⟩ }, rest) else none
  | _ => none

/-- Serialize a statement index pair (DateTime, 报告期). -/
def encStmt (r : StmtRow) : List Tok := Tok.nat r.1 :: encRDate r.2

/-- Parse a statement index pair. -/
def decStmt : List Tok → Option (StmtRow × List Tok)
  | Tok.nat d :: rest => (decRDate rest).map fun p => ((d, p.1), p.2)
  | _ => none

/-- Serialize an optional statement pair with a presence flag. -/
def encOptStmt : Option StmtRow → List Tok
  | none => [Tok.nat 0]
  | some r => Tok.nat 1 :: encStmt r

/-- Parse an optional statement pair. -/
def decOptStmt : List Tok → Option (Option StmtRow × List Tok)
  | Tok.nat 0 :: rest => some (none, rest)
  | Tok.nat 1 :: rest => (decStmt rest).map fun p => (some p.1, p.2)
  | _ => none

/-- Serialize one DateCache entry value in constructor order. -/
def encEntryVal (e : DateCache) : List Tok :=
  encStmt e.current ++ encOptStmt e.q1 ++ encOptStmt e.q2 ++ encOptStmt e.y1 ++
    encOptStmt e.q4 ++ encOptStmt e.q5 ++ encOptStmt e.y3 ++ encOptStmt e.y5

/-- Parse one DateCache entry value. -/
def decEntryVal (l : List Tok) : Option (DateCache × List Tok) := do
  let (cur, l) ← decStmt l
  let (q1, l) ← decOptStmt l
  let (q2, l) ← decOptStmt l
  let (y1, l) ← decOptStmt l
  let (q4, l) ← decOptStmt l
  let (q5, l) ← decOptStmt l
  let (y3, l) ← decOptStmt l
  let (y5, l) ← decOptStmt l
  some ({ current := cur, q1 := q1, q2 := q2, y1 := y1, q4 := q4, q5 := q5,
          y3 := y3, y5 := y5 }, l)

/-- Serialize one watermark binding (ticker, date). -/
def encWm (p : String × ℕ) : List Tok := [Tok.str p.1, Tok.nat p.2]

/-- Parse one watermark binding. -/
def decWm : List Tok → Option ((String × ℕ) × List Tok)
  | Tok.str s :: Tok.nat d :: rest => some ((s, d), rest)
  | _ => none

/-- Serialize one cache entry binding ((ticker, date), entry value). -/
def encEntry (p : (String × ℕ) × DateCache) : List Tok :=
  Tok.str p.1.1 :: Tok.nat p.1.2 :: encEntryVal p.2

/-- Parse one cache entry binding. -/
def decEntry : List Tok → Option (((String × ℕ) × DateCache) × List Tok)
  | Tok.str s :: Tok.nat d :: rest =>
      (decEntryVal rest).map fun p => (((s, d), p.1), p.2)
  | _ => none

/-- Serialize a list as a length token followed by the serialized items. -/
def encListOf {α : Type} (enc : α → List Tok) (l : List α) : List Tok :=
  Tok.nat l.length :: l.foldr (fun x acc => enc x ++ acc) []

/-- Parse a known number of items. -/
def decItems {α : Type} (dec : List Tok → Option (α × List Tok)) :
    ℕ → List Tok → Option (List α × List Tok)
  | 0, l => some ([], l)
  | n + 1, l =>
      match dec l with
      | none => none
      | some (x, l') => (decItems dec n l').map fun p => (x :: p.1, p.2)

/-- Parse a length-prefixed list. -/
def decListOf {α : Type} (dec : List Tok → Option (α × List Tok)) :
    List Tok → Option (List α × List Tok)
  | Tok.nat n :: rest => decItems dec n rest
  | _ => none

/-- Modelled from the spec: saving the accounting-date cache — serialize
the two top-level fields (the per-entity watermark map, then the ordered
entry map) into the single blob written into the compressed archive. -/
def saveCache (c : Cache) : List Tok :=
  encListOf encWm c.watermarks ++ encListOf encEntry c.entries

/-- Modelled from the spec: loading the accounting-date cache back from the
serialized blob; fails on any malformed or trailing content. -/
def loadCache (l : List Tok) : Option Cache :=
  match decListOf decWm l with
  | none => none
  | some (wms, rest) =>
      match decListOf decEntry rest with
      | none => none
      | some (es, rest') =>
          if rest'.isEmpty then some { watermarks := wms, entries := es } else none

end AccountingDateCacheCompositor

/-- A concrete two-ticker world for the limit-move compositor: one trading
day of data after the first, both tickers one-word with nonzero moves. -/
def wCL4 : ConstLimitStockFactorCompositor.World :=
  { trading := [1, 2]
    defaultStart := 0
    priceEnd := 2
    data := fun d => if d = 1 then [("A", 10, 10), ("B", 20, 20)]
      else [("A", 11, 11), ("B", 19, 19)]
    paused := fun _ => []
    adj := fun _ _ => 1 }

/-- A concrete one-ticker index world with two trading days and constant
prices. -/
def wIdem : IndexCompositor.IWorld :=
  { trading := [1, 2]
    policyStart := 0
    priceEnd := 2
    tickers := fun _ => ["A"]
    units := fun _ _ => 1
    close := fun _ _ => 1
    adj := fun _ _ => 1
    offsetPrev := fun d => d - 1 }

/-- A concrete two-constituent index world: equal weights, one-day returns
of +1% and −1%. -/
def wC6 : IndexCompositor.IWorld :=
  { trading := [1]
    policyStart := 0
    priceEnd := 1
    tickers := fun _ => ["A", "B"]
    units := fun _ _ => 1
    close := fun d t => if d = 0 then 100 else if t = "A" then 101 else 99
    adj := fun _ _ => 1
    offsetPrev := fun d => d - 1 }

theorem alookup_aupsert_same {κ ν : Type} [DecidableEq κ] (k : κ) (v : ν)
    (m : List (κ × ν)) : alookup k (aupsert k v m) = some v := by
  induction m with
  | nil => simp [alookup, aupsert]
  | cons p ps ih =>
    by_cases h : p.1 = k
    · simp [alookup, aupsert, h]
    · simp [alookup, aupsert, h, ih]

theorem alookup_aupsert_other {κ ν : Type} [DecidableEq κ] (k k' : κ) (v : ν)
    (m : List (κ × ν)) (hne : k ≠ k') : alookup k' (aupsert k v m) = alookup k' m := by
  induction m with
  | nil => simp [alookup, aupsert, hne]
  | cons p ps ih =>
    by_cases h : p.1 = k
    · subst h
      simp [alookup, aupsert, hne]
    · simp only [aupsert, if_neg h, alookup]
      by_cases h2 : p.1 = k'
      · simp [h2]
      · simp [h2, ih]

theorem le_latestDate {dates : List ℕ} {x : ℕ} (dflt : ℕ) (hx : x ∈ dates) :
    x ≤ latestDate dates dflt := by
  have h : ∀ l : List ℕ, x ∈ l → x ≤ l.foldr max 0 := by
    intro l
    induction l with
    | nil => intro h; cases h
    | cons a l ih =>
      intro h
      rcases List.mem_cons.1 h with h | h
      · subst h; exact le_max_left _ _
      · exact le_trans (ih h) (le_max_right _ _)
  cases dates with
  | nil => cases hx
  | cons a l => exact h _ hx

theorem latestDate_mem {dates : List ℕ} (dflt : ℕ) (h : dates ≠ []) :
    latestDate dates dflt ∈ dates := by
  have key : ∀ l : List ℕ, l ≠ [] → l.foldr max 0 ∈ l := by
    intro l
    induction l with
    | nil => intro h; exact absurd rfl h
    | cons a t ih =>
      intro _
      cases t with
      | nil => simp
      | cons b t' =>
        have hfold : (a :: b :: t').foldr max 0 = max a ((b :: t').foldr max 0) := rfl
        rcases max_choice a ((b :: t').foldr max 0) with hm | hm
        · rw [hfold, hm]
          exact List.mem_cons_self _ _
        · rw [hfold, hm]
          exact List.mem_cons_of_mem _ (ih (by simp))
  cases dates with
  | nil => exact absurd rfl h
  | cons a l =>
    have := key (a :: l) (by simp)
    simpa [latestDate] using this

namespace ConstLimitStockFactorCompositor

theorem go_date_mem {w : World} {r : Row} :
    ∀ {pre : ℕ} {l : List ℕ}, r ∈ go w pre l → r.1 ∈ l := by
  intro pre l
  induction l generalizing pre with
  | nil => intro h; cases h
  | cons d ds ih =>
    intro h
    rcases List.mem_append.1 h with h | h
    · rcases List.mem_map.1 h with ⟨p, _, hp⟩
      rw [← hp]
      exact List.mem_cons_self _ _
    · exact List.mem_cons_of_mem _ (ih h)

theorem go_append (w : World) (p : ℕ) (xs ys : List ℕ) :
    go w p (xs ++ ys) = go w p xs ++ go w (xs.getLastD p) ys := by
  induction xs generalizing p with
  | nil => simp [go]
  | cons a t ih =>
    show _ ++ go w a (t ++ ys) = _ ++ _ ++ _
    rw [ih, List.append_assoc, List.getLastD_cons]

end ConstLimitStockFactorCompositor

namespace FundAdjFactorCompositor

theorem cumProdAux_eq_map (l : List ℚ) :
    ∀ acc : ℚ, cumProdAux acc l
      = (List.range l.length).map fun k => acc * ((l.take (k + 1)).prod) := by
  induction l with
  | nil => intro acc; simp [cumProdAux]
  | cons x xs ih =>
    intro acc
    rw [show (x :: xs).length = xs.length + 1 from rfl, List.range_succ_eq_map]
    simp only [cumProdAux, List.map_cons, List.map_map, ih (acc * x)]
    refine List.cons_eq_cons.2 ⟨by simp, ?_⟩
    apply List.map_congr_left
    intro k _
    simp [Function.comp, List.take_succ_cons, mul_assoc]

theorem cumprod_eq_map (l : List ℚ) :
    cumprod l = (List.range l.length).map fun k => (l.take (k + 1)).prod := by
  rw [cumprod, cumProdAux_eq_map]
  simp

end FundAdjFactorCompositor

namespace AccountingDateCacheCompositor

theorem decRDate_enc (d : RDate) (rest : List Tok) :
    decRDate (encRDate d ++ rest) = some (d, rest) := by
  have h4 := d.q.isLt
  simp [encRDate, decRDate, h4]

theorem decStmt_enc (r : StmtRow) (rest : List Tok) :
    decStmt (encStmt r ++ rest) = some (r, rest) := by
  simp [encStmt, decStmt, decRDate_enc]

theorem decOptStmt_enc (o : Option StmtRow) (rest : List Tok) :
    decOptStmt (encOptStmt o ++ rest) = some (o, rest) := by
  cases o with
  | none => simp [encOptStmt, decOptStmt]
  | some r => simp [encOptStmt, decOptStmt, decStmt_enc]

theorem decEntryVal_enc (e : DateCache) (rest : List Tok) :
    decEntryVal (encEntryVal e ++ rest) = some (e, rest) := by
  simp [encEntryVal, decEntryVal, List.append_assoc, decStmt_enc, decOptStmt_enc,
    Option.bind_eq_bind]

theorem decWm_enc (p : String × ℕ) (rest : List Tok) :
    decWm (encWm p ++ rest) = some (p, rest) := by
  simp [encWm, decWm]

theorem decEntry_enc (p : (String × ℕ) × DateCache) (rest : List Tok) :
    decEntry (encEntry p ++ rest) = some (p, rest) := by
  simp [encEntry, decEntry, decEntryVal_enc]

theorem decItems_enc {α : Type} (enc : α → List Tok)
    (dec : List Tok → Option (α × List Tok))
    (hround : ∀ a rest, dec (enc a ++ rest) = some (a, rest)) (l : List α) :
    ∀ rest : List Tok,
      decItems dec l.length (l.foldr (fun x acc => enc x ++ acc) [] ++ rest)
        = some (l, rest) := by
  induction l with
  | nil => intro rest; simp [decItems]
  | cons x xs ih =>
    intro rest
    simp only [List.length_cons, List.foldr_cons, decItems, List.append_assoc,
      hround x]
    simp [ih rest]

theorem decListOf_enc {α : Type} (enc : α → List Tok)
    (dec : List Tok → Option (α × List Tok))
    (hround : ∀ a rest, dec (enc a ++ rest) = some (a, rest)) (l : List α)
    (rest : List Tok) :
    decListOf dec (encListOf enc l ++ rest) = some (l, rest) := by
  simp [encListOf, decListOf, decItems_enc enc dec hround l rest]

/-- C9: saving the accounting-date cache (serialize the blob that goes into
the compressed archive) and loading it back yields a structure whose
per-entity watermark map and whose ordered list of (entity, trading date)
to related-period-tuple entries are identical to the saved ones, for every
cache value. -/
theorem C9_cache_roundtrip (c : Cache) : loadCache (saveCache c) = some c := by
  have h1 := decListOf_enc encWm decWm decWm_enc c.watermarks
    (encListOf encEntry c.entries)
  have h2 := decListOf_enc encEntry decEntry decEntry_enc c.entries []
  rw [List.append_nil] at h2
  simp [saveCache, loadCache, h1, h2]

end AccountingDateCacheCompositor

/-- C1: the limit-move detector at a date where exactly one entity
qualifies (high = low = 100, not suspended, previous day 95, adjustment
factor 1 on both days, so the adjusted price differs from the previous
adjusted price): the qualifying set is the singleton, yet the code writes
no row, because the source only writes when diff_price.shape[0] > 1
(FactorCompositor.py line 83). -/
theorem C1_single_qualifier_writes_nothing :
    ConstLimitStockFactorCompositor.spec_qualifying
        [("000001.SZ", 100, 100)] [("000001.SZ", 95, 95)] []
        (fun _ => 1) (fun _ => 1) = ["000001.SZ"]
    ∧ ConstLimitStockFactorCompositor.processDate
        [("000001.SZ", 100, 100)] [("000001.SZ", 95, 95)] []
        (fun _ => 1) = [] := by
  constructor
  · simp [ConstLimitStockFactorCompositor.spec_qualifying,
      ConstLimitStockFactorCompositor.lookupHigh]
    try norm_num
    try simp
  · simp [ConstLimitStockFactorCompositor.processDate,
      ConstLimitStockFactorCompositor.lookupHigh]
    try norm_num
    try simp

/-- C7: a date with two one-word tickers A and B.  A has today's high = low
= 100 against yesterday's 95 with adjustment factor 19/20 today and 1
yesterday, so A's adjusted price (100 × 19/20 = 95) equals the previous
trading day's adjusted price (95 × 1 = 95) and per the claim A must get no
row; B is a genuine mover.  The code nevertheless labels A limit-up (+1),
because the source multiplies both days' raw prices by the adjustment
factor at the current date (FactorCompositor.py lines 78–80), so the
comparison degenerates to the raw prices 100 > 95. -/
theorem C7_label_uses_current_day_factor_only :
    ConstLimitStockFactorCompositor.processDate
        [("A", 100, 100), ("B", 50, 50)] [("A", 95, 95), ("B", 45, 45)] []
        (fun t => if t = "A" then 19/20 else 1) = [("A", 1), ("B", 1)]
    ∧ ConstLimitStockFactorCompositor.spec_qualifying
        [("A", 100, 100), ("B", 50, 50)] [("A", 95, 95), ("B", 45, 45)] []
        (fun t => if t = "A" then 19/20 else 1) (fun _ => 1) = ["B"] := by
  constructor
  · simp [ConstLimitStockFactorCompositor.processDate,
      ConstLimitStockFactorCompositor.lookupHigh]
    try norm_num
    try simp
  · simp [ConstLimitStockFactorCompositor.spec_qualifying,
      ConstLimitStockFactorCompositor.lookupHigh]
    try norm_num
    try simp

/-- C2 counterexample: a fund listed at day 0 with one distribution event
at day 5 and no retrievable price history.  The price/distribution counts
mismatch (0 vs 1), yet the store is not left untouched: the listing-date
seed factor 1 was already upserted at source line 112, before the
mismatch check at line 125, so the written rows are [(0, 1)], not []. -/
theorem C2_counterexample_seed_written_on_mismatch :
    ((([((5 : ℕ), (1 : ℚ))].map fun r => r.1).filterMap
        (fun _ => (none : Option ℚ))).length ≠ [((5 : ℕ), (1 : ℚ))].length)
    ∧ FundAdjFactorCompositor.compute_adj_factor (fun d => d + 1) 0
        [(5, 1)] (fun _ => none) = [(0, 1)]
    ∧ FundAdjFactorCompositor.compute_adj_factor (fun d => d + 1) 0
        [(5, 1)] (fun _ => none) ≠ [] := by
  refine ⟨by simp, ?_, ?_⟩
  · norm_num [FundAdjFactorCompositor.compute_adj_factor]
  · norm_num [FundAdjFactorCompositor.compute_adj_factor]

/-- C2 (amended): when the number of retrieved price points does not match
the number of distribution events, compute_adj_factor returns having
written only the listing-date seed factor 1 — the seed was upserted before
the check, so the adjustment series is not completely untouched, but no
distribution-derived factor is written. -/
theorem C2_amended_only_seed_on_mismatch (offset1 : ℕ → ℕ) (listDate : ℕ)
    (divInfo : List (ℕ × ℚ)) (price : ℕ → Option ℚ)
    (hmis : ((divInfo.map fun r => r.1).filterMap price).length ≠ divInfo.length) :
    FundAdjFactorCompositor.compute_adj_factor offset1 listDate divInfo price
      = [(listDate, 1)] := by
  cases divInfo with
  | nil => simp at hmis
  | cons hd tl =>
    simp only [FundAdjFactorCompositor.compute_adj_factor, List.isEmpty_cons,
      Bool.false_eq_true, if_false, if_pos hmis]

theorem C2_witness :
    FundAdjFactorCompositor.compute_adj_factor (fun d => d + 1) 0
      [(5, 1)] (fun _ => none) = [(0, 1)] :=
  C2_amended_only_seed_on_mismatch (fun d => d + 1) 0 [(5, 1)] (fun _ => none)
    (by simp)

/-- C5: for a fund with listing date L and distribution events (e_k, d_k)
in chronological order whose prices were all retrieved (the count check
passes), compute_adj_factor writes factor 1 at L and, for each k, the
cumulative product of p_i/(p_i − d_i) over i ≤ k, effective at the
calendar-offset date offset1 e_k (the trading day after e_k). -/
theorem C5_fund_adj_factor_values (offset1 : ℕ → ℕ) (listDate : ℕ)
    (divInfo : List (ℕ × ℚ)) (price : ℕ → Option ℚ)
    (hlen : ((divInfo.map fun r => r.1).filterMap price).length = divInfo.length) :
    FundAdjFactorCompositor.compute_adj_factor offset1 listDate divInfo price
      = (listDate, 1) :: List.zip ((divInfo.map fun r => r.1).map offset1)
          ((List.range divInfo.length).map fun k =>
            ((List.zipWith (fun p d => p / (p - d))
                ((divInfo.map fun r => r.1).filterMap price)
                (divInfo.map fun r => r.2)).take (k + 1)).prod) := by
  cases hdi : divInfo with
  | nil => simp [FundAdjFactorCompositor.compute_adj_factor]
  | cons hd tl =>
    rw [← hdi]
    have hne : ¬ divInfo.isEmpty := by rw [hdi]; simp
    have hmis : ¬ (((divInfo.map fun r => r.1).filterMap price).length ≠ divInfo.length) :=
      not_not_intro hlen
    simp only [FundAdjFactorCompositor.compute_adj_factor, if_neg hne, if_neg hmis]
    rw [FundAdjFactorCompositor.cumprod_eq_map]
    have hr : (List.zipWith (fun p d => p / (p - d))
        ((divInfo.map fun r => r.1).filterMap price)
        (divInfo.map fun r => r.2)).length = divInfo.length := by
      rw [List.length_zipWith, hlen, List.length_map, Nat.min_self]
    rw [hr]
    rfl

theorem C5_witness :
    FundAdjFactorCompositor.compute_adj_factor (fun d => d + 1) 0
      [(5, 1/4)] (fun d => if d = 5 then some (5/4) else none) = [(0, 1), (6, 5/4)] := by
  have h := C5_fund_adj_factor_values (fun d => d + 1) 0
    [(5, 1/4)] (fun d => if d = 5 then some (5/4) else none) (by simp)
  rw [h]
  simp
  norm_num

/-- C3 counterexample: an entity whose history holds a 2019-Q4 annual
statement announced at day 10 and a 2020-Q3 statement announced at day 20.
The entry computed for the event at day 20 stores, besides the current
statement, a resolved component in its y1 slot (the prior year-end
2019-Q4 lookup of source line 247) whose report period is none of the five
related periods named by the claim, so the stored related components are
not exactly the claimed five. -/
theorem C3_counterexample_extra_components :
    (AccountingDateCacheCompositor.computeEntry
        [((10 : ℕ), (⟨2019, 3⟩ : RDate)), (20, ⟨2020, 2⟩)] 20).map
        AccountingDateCacheCompositor.storedRelated
      ≠ some (AccountingDateCacheCompositor.specRelatedResolved
        [((10 : ℕ), (⟨2019, 3⟩ : RDate)), (20, ⟨2020, 2⟩)] 20)
    ∧ (AccountingDateCacheCompositor.computeEntry
        [((10 : ℕ), (⟨2019, 3⟩ : RDate)), (20, ⟨2020, 2⟩)] 20).map
        (fun e => e.y1) = some (some (10, ⟨2019, 3⟩))
    ∧ ¬ ((⟨2019, 3⟩ : RDate) ∈ AccountingDateCacheCompositor.specRelatedTargets ⟨2020, 2⟩) := by
  refine ⟨by decide, by decide, by decide⟩


theorem list_sum_map_div {α : Type} (l : List α) (f : α → ℚ) (c : ℚ) :
    (l.map fun i => f i / c).sum = (l.map f).sum / c := by
  induction l with
  | nil => simp
  | cons a t ih => simp [ih, add_div]

/-- C6: for every date the index compositor processes, each constituent's
return is (close × adj)/(prev_close × prev_adj) − 1, the weights (prior-day
units × prior close, normalized) sum to 1, and the single scalar written
for that date under this index's ticker is the dot product of the weight
vector with the constituent-return vector. -/
theorem C6_index_return_is_weighted_dot_product (w : IndexCompositor.IWorld)
    (table : List (ℕ × ℚ)) (d : ℕ) (hd : d ∈ IndexCompositor.updateDates w table)
    (htot : ((w.tickers d).map fun j =>
      w.units (w.offsetPrev d) j * w.close (w.offsetPrev d) j).sum ≠ 0) :
    IndexCompositor.spec_weight_sum (w.tickers d) (w.units (w.offsetPrev d))
        (w.close (w.offsetPrev d)) = 1
    ∧ (d, IndexCompositor.spec_index_ret (w.tickers d) (w.units (w.offsetPrev d))
        (w.close (w.offsetPrev d)) (w.adj (w.offsetPrev d)) (w.close d) (w.adj d))
      ∈ IndexCompositor.update w table := by
  constructor
  · rw [IndexCompositor.spec_weight_sum]
    have : ((w.tickers d).map
        (IndexCompositor.spec_weight (w.tickers d) (w.units (w.offsetPrev d))
          (w.close (w.offsetPrev d)))).sum
        = ((w.tickers d).map fun j =>
            w.units (w.offsetPrev d) j * w.close (w.offsetPrev d) j).sum
          / ((w.tickers d).map fun j =>
            w.units (w.offsetPrev d) j * w.close (w.offsetPrev d) j).sum := by
      rw [← list_sum_map_div]
      rfl
    rw [this]
    exact div_self htot
  · have hret : IndexCompositor.spec_index_ret (w.tickers d) (w.units (w.offsetPrev d))
        (w.close (w.offsetPrev d)) (w.adj (w.offsetPrev d)) (w.close d) (w.adj d)
        = IndexCompositor.ret_at w d := by
      rw [IndexCompositor.spec_index_ret, IndexCompositor.ret_at,
        IndexCompositor.compute_ret]
      apply congrArg List.sum
      apply List.map_congr_left
      intro i _
      rw [IndexCompositor.spec_weight, IndexCompositor.spec_ret]
      ring
    rw [hret, IndexCompositor.update]
    exact List.mem_map.2 ⟨d, hd, rfl⟩

theorem C6_witness :
    IndexCompositor.spec_weight_sum (wC6.tickers 1) (wC6.units (wC6.offsetPrev 1))
        (wC6.close (wC6.offsetPrev 1)) = 1
    ∧ (1, IndexCompositor.spec_index_ret (wC6.tickers 1) (wC6.units (wC6.offsetPrev 1))
        (wC6.close (wC6.offsetPrev 1)) (wC6.adj (wC6.offsetPrev 1)) (wC6.close 1) (wC6.adj 1))
      ∈ IndexCompositor.update wC6 [] :=
  C6_index_return_is_weighted_dot_product wC6 [] 1
    (by simp [IndexCompositor.updateDates, wC6, latestDate])
    (by norm_num [wC6])

namespace ConstLimitStockFactorCompositor

theorem update_eq_go (w : World) (T : List Row) :
    update w T
      = match w.trading.filter (fun x =>
          latestDate (T.map fun r => r.1) w.defaultStart ≤ x ∧ x ≤ w.priceEnd) with
        | [] => []
        | _ :: rest => go w (latestDate (T.map fun r => r.1) w.defaultStart) rest := rfl

/-- Second run of the limit-move compositor immediately after a completed
run writes nothing: every date in the second run's range was already
processed by the first run with the same inputs and produced no rows. -/
theorem update_twice_nil (w : World) (T : List Row)
    (hsort : w.trading.Pairwise (· < ·)) :
    update w (T ++ update w T) = [] := by
  by_cases hW : update w T = []
  · rw [hW, List.append_nil, hW]
  · have hd1 : ∀ dates1, w.trading.filter (fun x =>
        latestDate (T.map fun r => r.1) w.defaultStart ≤ x ∧ x ≤ w.priceEnd) = dates1 →
        update w (T ++ update w T) = [] := by
      intro dates1 hdates1
      cases dates1 with
      | nil =>
        exfalso
        apply hW
        rw [update_eq_go, hdates1]
      | cons d0 rest1 =>
        have hW1eq : update w T = go w (latestDate (T.map fun r => r.1) w.defaultStart) rest1 := by
          rw [update_eq_go, hdates1]
        -- the latest date in the grown table
        have hT1ne : ((T ++ update w T).map fun r => r.1) ≠ [] := by
          simp only [ne_eq, List.map_eq_nil_iff, List.append_eq_nil]
          intro h
          exact hW h.2
        have hub : ∀ x ∈ ((T ++ update w T).map fun r => r.1),
            x ≤ latestDate ((T ++ update w T).map fun r => r.1) w.defaultStart :=
          fun x hx => le_latestDate _ hx
        -- the latest date is the date of a row written by the first run
        have hW1w : latestDate ((T ++ update w T).map fun r => r.1) w.defaultStart
            ∈ (update w T).map fun r => r.1 := by
          have hW1mem := latestDate_mem w.defaultStart hT1ne
          rcases List.mem_map.1 hW1mem with ⟨row, hrow, hroweq⟩
          rcases List.mem_append.1 hrow with hrowT | hrowW
          · exfalso
            obtain ⟨r0, hr0⟩ := List.exists_mem_of_ne_nil _ hW
            have hr0d : r0.1 ∈ rest1 := go_date_mem (hW1eq ▸ hr0)
            have hpair : (d0 :: rest1).Pairwise (· < ·) := by
              rw [← hdates1]
              exact List.Pairwise.sublist (List.filter_sublist _) hsort
            have hd0lt : d0 < r0.1 := (List.pairwise_cons.1 hpair).1 _ hr0d
            have hd0mem : d0 ∈ w.trading.filter (fun x =>
                latestDate (T.map fun r => r.1) w.defaultStart ≤ x ∧ x ≤ w.priceEnd) := by
              rw [hdates1]; exact List.mem_cons_self _ _
            have hd0ge : latestDate (T.map fun r => r.1) w.defaultStart ≤ d0 := by
              have := (List.mem_filter.1 hd0mem).2
              exact (of_decide_eq_true this).1
            have hTne : (T.map fun r => r.1) ≠ [] := by
              simp only [ne_eq, List.map_eq_nil_iff]
              intro h
              subst h
              cases hrowT
            have hrowle : row.1 ≤ latestDate (T.map fun r => r.1) w.defaultStart :=
              le_latestDate _ (List.mem_map.2 ⟨row, hrowT, rfl⟩)
            have hr0le : r0.1 ≤ latestDate ((T ++ update w T).map fun r => r.1) w.defaultStart :=
              hub _ (List.mem_map.2 ⟨r0, List.mem_append.2 (Or.inr hr0), rfl⟩)
            rw [hroweq] at hrowle
            omega
          · exact List.mem_map.2 ⟨row, hrowW, hroweq⟩
        have hW1rest : latestDate ((T ++ update w T).map fun r => r.1) w.defaultStart ∈ rest1 := by
          rcases List.mem_map.1 hW1w with ⟨row, hrow, hroweq⟩
          exact hroweq ▸ go_date_mem (hW1eq ▸ hrow)
        obtain ⟨pre, suf, hsplit⟩ := List.append_of_mem hW1rest
        have hpairdates : (d0 :: rest1).Pairwise (· < ·) := by
          rw [← hdates1]
          exact List.Pairwise.sublist (List.filter_sublist _) hsort
        have hpairrest : rest1.Pairwise (· < ·) := (List.pairwise_cons.1 hpairdates).2
        have hd0all : ∀ y ∈ rest1, d0 < y := (List.pairwise_cons.1 hpairdates).1
        -- bounds of the latest date inside dates1
        have hWmemdates : latestDate ((T ++ update w T).map fun r => r.1) w.defaultStart
            ∈ w.trading.filter (fun x =>
              latestDate (T.map fun r => r.1) w.defaultStart ≤ x ∧ x ≤ w.priceEnd) := by
          rw [hdates1]
          exact List.mem_cons_of_mem _ hW1rest
        have hWcond := of_decide_eq_true (List.mem_filter.1 hWmemdates).2
        -- second run date range: W1 :: suf
        have hdates2 : w.trading.filter (fun x =>
            latestDate ((T ++ update w T).map fun r => r.1) w.defaultStart ≤ x
              ∧ x ≤ w.priceEnd) =
            latestDate ((T ++ update w T).map fun r => r.1) w.defaultStart :: suf := by
          have hstep1 : w.trading.filter (fun x =>
              latestDate ((T ++ update w T).map fun r => r.1) w.defaultStart ≤ x
                ∧ x ≤ w.priceEnd) =
              (w.trading.filter (fun x =>
                latestDate (T.map fun r => r.1) w.defaultStart ≤ x ∧ x ≤ w.priceEnd)).filter
                (fun x => latestDate ((T ++ update w T).map fun r => r.1) w.defaultStart ≤ x) := by
            rw [List.filter_filter]
            apply List.filter_congr
            intro x _
            have h12 : latestDate (T.map fun r => r.1) w.defaultStart
                ≤ latestDate ((T ++ update w T).map fun r => r.1) w.defaultStart := hWcond.1
            simp only [List.map_append] at h12 ⊢
            by_cases hx1 : latestDate
                ((T.map fun r => r.1) ++ (update w T).map fun r => r.1) w.defaultStart ≤ x
            · by_cases hx2 : x ≤ w.priceEnd
              · simp [hx1, hx2, le_trans h12 hx1]
              · simp [hx1, hx2]
            · simp [hx1]
          have hnotd0 : ¬ latestDate ((T ++ update w T).map fun r => r.1) w.defaultStart ≤ d0 := by
            have := hd0all _ hW1rest
            omega
          have hprenil : pre.filter (fun x =>
              latestDate ((T ++ update w T).map fun r => r.1) w.defaultStart ≤ x) = [] := by
            rw [List.filter_eq_nil_iff]
            intro a ha
            have hpair2 := hsplit ▸ hpairrest
            have := (List.pairwise_append.1 hpair2).2.2 a ha _ (List.mem_cons_self _ _)
            simp only [decide_eq_true_eq]
            omega
          have hsufall : suf.filter (fun x =>
              latestDate ((T ++ update w T).map fun r => r.1) w.defaultStart ≤ x) = suf := by
            rw [List.filter_eq_self]
            intro a ha
            have hpair2 := hsplit ▸ hpairrest
            have := (List.pairwise_cons.1 (List.pairwise_append.1 hpair2).2.1).1 a ha
            simp only [decide_eq_true_eq]
            omega
          rw [hstep1, hdates1, hsplit]
          simp only [List.filter_cons, List.filter_append, decide_eq_true_eq]
          rw [if_neg hnotd0, if_pos (le_refl _), hprenil, hsufall, List.nil_append]
        -- the second run processes exactly suf, whose per-date outputs are a
        -- suffix of the first run's output and hence empty
        have hdecomp : go w (latestDate (T.map fun r => r.1) w.defaultStart) rest1
            = go w (latestDate (T.map fun r => r.1) w.defaultStart)
                (pre ++ [latestDate ((T ++ update w T).map fun r => r.1) w.defaultStart])
              ++ go w (latestDate ((T ++ update w T).map fun r => r.1) w.defaultStart) suf := by
          rw [hsplit]
          rw [show pre ++ (latestDate ((T ++ update w T).map fun r => r.1) w.defaultStart) :: suf
            = (pre ++ [latestDate ((T ++ update w T).map fun r => r.1) w.defaultStart]) ++ suf by
              simp]
          rw [go_append]
          rw [List.getLastD_concat]
        rw [update_eq_go, hdates2]
        show go w (latestDate ((T ++ update w T).map fun r => r.1) w.defaultStart) suf = []
        cases hgo : go w (latestDate ((T ++ update w T).map fun r => r.1) w.defaultStart) suf with
        | nil => rfl
        | cons r rs =>
          exfalso
          have hr : r ∈ go w (latestDate ((T ++ update w T).map fun r => r.1) w.defaultStart) suf := by
            rw [hgo]
            exact List.mem_cons_self _ _
          have hrsuf : r.1 ∈ suf := go_date_mem hr
          have hrW1 : r ∈ update w T := by
            rw [hW1eq, hdecomp]
            exact List.mem_append.2 (Or.inr hr)
          have hrle : r.1 ≤ latestDate ((T ++ update w T).map fun r => r.1) w.defaultStart :=
            hub _ (List.mem_map.2 ⟨r, List.mem_append.2 (Or.inr hrW1), rfl⟩)
          have hgt : latestDate ((T ++ update w T).map fun r => r.1) w.defaultStart < r.1 := by
            have hpair2 := hsplit ▸ hpairrest
            exact (List.pairwise_cons.1 (List.pairwise_append.1 hpair2).2.1).1 _ hrsuf
          omega
    exact hd1 _ rfl

end ConstLimitStockFactorCompositor

namespace IndexCompositor

theorem update_eq_map (w : IWorld) (table : List (ℕ × ℚ)) :
    update w table = (updateDates w table).map fun d => (d, ret_at w d) := rfl

theorem update_start_le (w : IWorld) (table : List (ℕ × ℚ)) :
    ∀ r ∈ update w table,
      latestDate (table.map fun x => x.1) w.policyStart ≤ r.1 := by
  intro r hr
  rw [update_eq_map] at hr
  rcases List.mem_map.1 hr with ⟨d, hd, rfl⟩
  rw [updateDates] at hd
  have := (List.mem_filter.1 hd).2
  exact (of_decide_eq_true this).1

/-- Rows of the second run of the index compositor immediately after a
completed run are re-upserts of rows already present: each is an exact
member of the grown table. -/
theorem second_run_subset (w : IWorld) (T : List (ℕ × ℚ)) :
    ∀ r ∈ update w (T ++ update w T), r ∈ T ++ update w T := by
  intro r hr
  rw [update_eq_map] at hr
  rcases List.mem_map.1 hr with ⟨d, hd, rfl⟩
  refine List.mem_append.2 (Or.inr ?_)
  rw [update_eq_map]
  refine List.mem_map.2 ⟨d, ?_, rfl⟩
  rw [updateDates] at hd ⊢
  have hcond := of_decide_eq_true (List.mem_filter.1 hd).2
  have htrad := (List.mem_filter.1 hd).1
  -- the first run's start is at most the second run's start
  have hle : latestDate (T.map fun r => r.1) w.policyStart
      ≤ latestDate ((T ++ update w T).map fun r => r.1) w.policyStart := by
    by_cases hT : T = []
    · subst hT
      cases hU : update w ([] : List (ℕ × ℚ)) with
      | nil => exact le_refl _
      | cons b m =>
        have hne : (([] ++ b :: m).map fun r => (r : ℕ × ℚ).1) ≠ [] := by simp
        have hmem := latestDate_mem w.policyStart hne
        rcases List.mem_map.1 hmem with ⟨row, hrow, heq⟩
        rw [List.nil_append] at hrow
        rw [← hU] at hrow
        have hge := update_start_le w [] row hrow
        simp only [List.map_nil] at hge
        exact heq ▸ hge
    · have h1 : latestDate (T.map fun r => r.1) w.policyStart ∈ T.map fun r => r.1 :=
        latestDate_mem _ (by simpa using hT)
      rcases List.mem_map.1 h1 with ⟨row, hrow, heq⟩
      exact heq ▸ le_latestDate _
        (List.mem_map.2 ⟨row, List.mem_append.2 (Or.inl hrow), rfl⟩)
  refine List.mem_filter.2 ⟨htrad, decide_eq_true ?_⟩
  exact ⟨le_trans hle hcond.1, hcond.2⟩

end IndexCompositor

/-- C4 counterexample: for the custom index compositor on a two-trading-day
world, a second update immediately after a completed run performs a write
(it re-processes the watermark date, because the source does not drop the
first date of the selected range), so the second run's writes are not
empty. -/
theorem C4_counterexample_index_second_run_writes :
    IndexCompositor.update wIdem ([] ++ IndexCompositor.update wIdem []) ≠ [] := by
  simp [IndexCompositor.update_eq_map, IndexCompositor.updateDates, latestDate, wIdem]

/-- C4 (amended): with no new upstream data, a second run of the limit-move
compositor performs zero writes; a second run of the index compositor may
perform writes (it re-processes the watermark date) but every row it
writes is already present, with identical value, in the table produced by
the first run, so the stored content does not change. -/
theorem C4_amended_second_run_no_new_content :
    (∀ (w : ConstLimitStockFactorCompositor.World)
        (T : List ConstLimitStockFactorCompositor.Row),
      w.trading.Pairwise (· < ·) →
      ConstLimitStockFactorCompositor.update w
        (T ++ ConstLimitStockFactorCompositor.update w T) = [])
    ∧ (∀ (w : IndexCompositor.IWorld) (T : List (ℕ × ℚ)),
        ∀ r ∈ IndexCompositor.update w (T ++ IndexCompositor.update w T),
          r ∈ T ++ IndexCompositor.update w T) :=
  ⟨fun w T h => ConstLimitStockFactorCompositor.update_twice_nil w T h,
   fun w T r hr => IndexCompositor.second_run_subset w T r hr⟩

theorem C4_witness :
    ConstLimitStockFactorCompositor.update wCL4
      ([] ++ ConstLimitStockFactorCompositor.update wCL4 []) = []
    ∧ (2, IndexCompositor.ret_at wIdem 2) ∈ ([] ++ IndexCompositor.update wIdem []) := by
  constructor
  · exact C4_amended_second_run_no_new_content.1 wCL4 [] (by decide)
  · refine C4_amended_second_run_no_new_content.2 wIdem [] (2, IndexCompositor.ret_at wIdem 2) ?_
    simp [IndexCompositor.update_eq_map, IndexCompositor.updateDates, latestDate, wIdem]

namespace AccountingDateCacheCompositor

theorem entriesFold_watermarks (rows : List StmtRow) (t : String) :
    ∀ (ds : List ℕ) (c : Cache),
      (ds.foldl (entryStep rows t) c).watermarks = c.watermarks := by
  intro ds
  induction ds with
  | nil => intro c; rfl
  | cons d ds ih =>
    intro c
    rw [List.foldl_cons, ih]
    unfold entryStep
    cases computeEntry rows d <;> rfl

theorem entriesFold_lookup (rows : List StmtRow) (t : String) :
    ∀ (ds : List ℕ) (c : Cache) (k : String × ℕ) (e : DateCache),
      alookup k ((ds.foldl (entryStep rows t) c).entries) = some e →
      alookup k c.entries = some e
        ∨ (k.1 = t ∧ k.2 ∈ ds ∧ computeEntry rows k.2 = some e) := by
  intro ds
  induction ds with
  | nil => intro c k e h; exact Or.inl h
  | cons d ds ih =>
    intro c k e h
    rw [List.foldl_cons] at h
    rcases ih _ k e h with h' | ⟨h1, h2, h3⟩
    · unfold entryStep at h'
      cases hce : computeEntry rows d with
      | none => rw [hce] at h'; exact Or.inl h'
      | some e' =>
        rw [hce] at h'
        by_cases hk : k = (t, d)
        · subst hk
          rw [alookup_aupsert_same] at h'
          refine Or.inr ⟨rfl, List.mem_cons_self _ _, ?_⟩
          rw [hce, h']
        · rw [alookup_aupsert_other _ _ _ _ (Ne.symm hk)] at h'
          exact Or.inl h'
    · exact Or.inr ⟨h1, List.mem_cons_of_mem _ h2, h3⟩

theorem entriesFold_lookup_of_disjoint (rows : List StmtRow) (t : String) :
    ∀ (ds : List ℕ) (c : Cache) (k : String × ℕ),
      (∀ d ∈ ds, k ≠ (t, d)) →
      alookup k ((ds.foldl (entryStep rows t) c).entries) = alookup k c.entries := by
  intro ds
  induction ds with
  | nil => intro c k _; rfl
  | cons d ds ih =>
    intro c k hk
    rw [List.foldl_cons, ih _ _ (fun d' hd' => hk d' (List.mem_cons_of_mem _ hd'))]
    unfold entryStep
    cases computeEntry rows d with
    | none => rfl
    | some e' =>
      exact alookup_aupsert_other _ _ _ _ (Ne.symm (hk d (List.mem_cons_self _ _)))

theorem entriesFold_lookup_mem (rows : List StmtRow) (t : String) :
    ∀ (ds : List ℕ) (c : Cache) (d : ℕ) (e : DateCache),
      ds.Nodup → d ∈ ds → computeEntry rows d = some e →
      alookup (t, d) ((ds.foldl (entryStep rows t) c).entries) = some e := by
  intro ds
  induction ds with
  | nil => intro c d e _ hm; cases hm
  | cons d' ds ih =>
    intro c d e hnd hm hce
    rw [List.foldl_cons]
    rcases List.mem_cons.1 hm with rfl | hm'
    · have hnotin : ¬ d ∈ ds := (List.nodup_cons.1 hnd).1
      rw [entriesFold_lookup_of_disjoint rows t ds _ (t, d)
        (fun d'' hd'' => by intro hkeq; exact hnotin (by cases hkeq; exact hd''))]
      unfold entryStep
      rw [hce]
      exact alookup_aupsert_same _ _ _
    · exact ih _ _ _ (List.nodup_cons.1 hnd).2 hm' hce

theorem updateTicker_entries (rows : List StmtRow) (dbDate : ℕ) (t : String) (c : Cache) :
    (updateTicker rows dbDate t c).entries
      = if (alookup t c.watermarks).getD 0 < dbDate then
          ((newEventDates rows ((alookup t c.watermarks).getD 0)).foldl
            (entryStep rows t) c).entries
        else c.entries := by
  unfold updateTicker
  by_cases h : (alookup t c.watermarks).getD 0 < dbDate
  · simp only [if_pos h]
    cases (newEventDates rows ((alookup t c.watermarks).getD 0)).getLast? <;> rfl
  · simp only [if_neg h]

theorem updateTicker_watermarks (rows : List StmtRow) (dbDate : ℕ) (t : String) (c : Cache)
    (h : (alookup t c.watermarks).getD 0 < dbDate) (L : ℕ)
    (hL : (newEventDates rows ((alookup t c.watermarks).getD 0)).getLast? = some L) :
    (updateTicker rows dbDate t c).watermarks = aupsert t L c.watermarks := by
  unfold updateTicker
  simp only [if_pos h, hL]
  rw [entriesFold_watermarks]

theorem updateTicker_watermarks_stale (rows : List StmtRow) (dbDate : ℕ) (t : String)
    (c : Cache) (h : ¬ ((alookup t c.watermarks).getD 0 < dbDate ∧
      (newEventDates rows ((alookup t c.watermarks).getD 0)).getLast? ≠ none)) :
    (updateTicker rows dbDate t c).watermarks = c.watermarks := by
  unfold updateTicker
  by_cases h1 : (alookup t c.watermarks).getD 0 < dbDate
  · simp only [if_pos h1]
    cases hL : (newEventDates rows ((alookup t c.watermarks).getD 0)).getLast? with
    | none => rw [entriesFold_watermarks]
    | some L => exact absurd ⟨h1, by rw [hL]; exact Option.some_ne_none L⟩ h
  · simp only [if_neg h1]

theorem newEventDates_gt (rows : List StmtRow) (cd : ℕ) :
    ∀ d ∈ newEventDates rows cd, cd < d := by
  intro d hd
  rw [newEventDates] at hd
  have := List.mem_filter.1 (List.mem_dedup.1 hd)
  exact of_decide_eq_true this.2

theorem getLast?_is_max {l : List ℕ} (hs : l.Pairwise (· ≤ ·)) :
    ∀ {L : ℕ}, l.getLast? = some L → ∀ x ∈ l, x ≤ L := by
  induction l with
  | nil => intro L hL; cases hL
  | cons a tl ih =>
    intro L hL x hx
    cases tl with
    | nil =>
      simp only [List.getLast?_singleton, Option.some_inj] at hL
      rcases List.mem_singleton.1 hx with rfl
      omega
    | cons b tl' =>
      have hL' : (b :: tl').getLast? = some L := by
        rw [← hL, List.getLast?_cons_cons]
      have hs' := List.pairwise_cons.1 hs
      rcases List.mem_cons.1 hx with rfl | hx'
      · have hbL : b ≤ L := ih hs'.2 hL' _ (List.mem_cons_self _ _)
        exact le_trans (hs'.1 b (List.mem_cons_self _ _)) hbL
      · exact ih hs'.2 hL' _ hx'

theorem sorted_newEventDates (rows : List StmtRow) (cd : ℕ)
    (hsort : (rows.map fun r => r.1).Pairwise (· ≤ ·)) :
    (newEventDates rows cd).Pairwise (· ≤ ·) := by
  rw [newEventDates]
  exact List.Pairwise.sublist
    (List.Sublist.trans (List.dedup_sublist _) (List.filter_sublist _)) hsort

end AccountingDateCacheCompositor

namespace AccountingDateCacheCompositor

/-- Well-formedness of a persisted cache: every stored entry's event date
is covered by its entity's watermark.  This is the shape every cache the
builder itself produces has. -/
def WF (c : Cache) : Prop :=
  ∀ (t : String) (d : ℕ) (e : DateCache),
    alookup (t, d) c.entries = some e →
    ∃ wm, alookup t c.watermarks = some wm ∧ d ≤ wm

theorem mem_of_getLast?_eq {l : List ℕ} {L : ℕ} (hL : l.getLast? = some L) : L ∈ l := by
  have h1 : L ∈ l.getLast? := by rw [Option.mem_def]; exact hL
  rcases List.mem_getLast?_eq_getLast h1 with ⟨h, heq⟩
  rw [heq]
  exact List.getLast_mem h

theorem updateTicker_preserves (rows : List StmtRow) (dbDate : ℕ) (t : String)
    (c : Cache) (hwf : WF c) :
    ∀ (k : String × ℕ) (e : DateCache), alookup k c.entries = some e →
      alookup k (updateTicker rows dbDate t c).entries = some e := by
  intro k e hk
  rw [updateTicker_entries]
  by_cases h : (alookup t c.watermarks).getD 0 < dbDate
  · rw [if_pos h, entriesFold_lookup_of_disjoint]
    · exact hk
    · intro d' hd' hkeq
      rcases hwf t d' e (by rw [← hkeq]; exact hk) with ⟨wm, hwm, hle⟩
      have hgt := newEventDates_gt rows ((alookup t c.watermarks).getD 0) d' hd'
      rw [hwm] at hgt
      simp only [Option.getD_some] at hgt
      omega
  · rw [if_neg h]
    exact hk

theorem WF_updateTicker (rows : List StmtRow) (dbDate : ℕ) (t : String)
    (c : Cache) (hwf : WF c)
    (hsort : (rows.map fun r => r.1).Pairwise (· ≤ ·)) :
    WF (updateTicker rows dbDate t c) := by
  intro t' d' e' h'
  by_cases h : (alookup t c.watermarks).getD 0 < dbDate
  · cases hL : (newEventDates rows ((alookup t c.watermarks).getD 0)).getLast? with
    | none =>
      have hnil : newEventDates rows ((alookup t c.watermarks).getD 0) = [] := by
        cases hnd : newEventDates rows ((alookup t c.watermarks).getD 0) with
        | nil => rfl
        | cons a l =>
          rw [hnd] at hL
          simp [List.getLast?_eq_getLast] at hL
      rw [updateTicker_entries, if_pos h, hnil] at h'
      have hwm := updateTicker_watermarks_stale rows dbDate t c
        (by intro hcontra; exact hcontra.2 hL)
      rw [hwm]
      exact hwf t' d' e' h'
    | some L =>
      have hwm := updateTicker_watermarks rows dbDate t c h L hL
      rw [updateTicker_entries, if_pos h] at h'
      rw [hwm]
      have hmax := getLast?_is_max (sorted_newEventDates rows _ hsort) hL
      rcases entriesFold_lookup rows t _ c (t', d') e' h' with hold | ⟨h1, h2, _⟩
      · rcases hwf t' d' e' hold with ⟨wm, hwm', hle⟩
        by_cases ht : t = t'
        · subst ht
          refine ⟨L, alookup_aupsert_same _ _ _, ?_⟩
          have hgt := newEventDates_gt rows ((alookup t c.watermarks).getD 0) L
            (mem_of_getLast?_eq hL)
          rw [hwm'] at hgt
          simp only [Option.getD_some] at hgt
          omega
        · exact ⟨wm, by rw [alookup_aupsert_other _ _ _ _ ht]; exact hwm', hle⟩
      · subst h1
        exact ⟨L, alookup_aupsert_same _ _ _, hmax _ h2⟩
  · have heq : updateTicker rows dbDate t c = c := by
      unfold updateTicker
      simp only [if_neg h]
    rw [heq] at h' ⊢
    exact hwf t' d' e' h'

theorem update_cons (db : String → List StmtRow × ℕ) (t : String) (ts : List String)
    (c : Cache) :
    update db (t :: ts) c = update db ts (updateTicker (db t).1 (db t).2 t c) := rfl

theorem update_preserves_and_WF (db : String → List StmtRow × ℕ)
    (hsort : ∀ t, ((db t).1.map fun r => r.1).Pairwise (· ≤ ·)) :
    ∀ (tickers : List String) (c : Cache), WF c →
      WF (update db tickers c)
      ∧ ∀ (k : String × ℕ) (e : DateCache), alookup k c.entries = some e →
          alookup k (update db tickers c).entries = some e := by
  intro tickers
  induction tickers with
  | nil => intro c hwf; exact ⟨hwf, fun k e hk => hk⟩
  | cons t ts ih =>
    intro c hwf
    have hwf' := WF_updateTicker (db t).1 (db t).2 t c hwf (hsort t)
    rcases ih _ hwf' with ⟨hwf'', hpres⟩
    refine ⟨by rw [update_cons]; exact hwf'', ?_⟩
    intro k e hk
    rw [update_cons]
    exact hpres k e (updateTicker_preserves (db t).1 (db t).2 t c hwf k e hk)

end AccountingDateCacheCompositor

/-- C8: for every run of the accounting-date cache builder on a well-formed
cache: (a) a cache entry that exists when the run starts is still found,
unchanged, after the whole run (append-only, never overwritten); (b) only
reporting events with date strictly after the entity's persisted watermark
are enumerated as new events; (c) when an entity is processed (newer data
exists and there are new events), its watermark is advanced to the last
new event date, which is the latest one processed. -/
theorem C8_append_only_and_watermark_advance
    (db : String → List AccountingDateCacheCompositor.StmtRow × ℕ)
    (tickers : List String) (c : AccountingDateCacheCompositor.Cache)
    (hwf : AccountingDateCacheCompositor.WF c)
    (hsort : ∀ t, ((db t).1.map fun r => r.1).Pairwise (· ≤ ·)) :
    (∀ (k : String × ℕ) (e : DateCache), alookup k c.entries = some e →
        alookup k (AccountingDateCacheCompositor.update db tickers c).entries = some e)
    ∧ (∀ (t : String) (d : ℕ),
        d ∈ AccountingDateCacheCompositor.newEventDates (db t).1
          ((alookup t c.watermarks).getD 0) →
        (alookup t c.watermarks).getD 0 < d)
    ∧ (∀ t : String, (alookup t c.watermarks).getD 0 < (db t).2 →
        ∀ L : ℕ, (AccountingDateCacheCompositor.newEventDates (db t).1
            ((alookup t c.watermarks).getD 0)).getLast? = some L →
          alookup t (AccountingDateCacheCompositor.updateTicker (db t).1 (db t).2 t
            c).watermarks = some L
          ∧ ∀ x ∈ AccountingDateCacheCompositor.newEventDates (db t).1
              ((alookup t c.watermarks).getD 0), x ≤ L) := by
  refine ⟨(AccountingDateCacheCompositor.update_preserves_and_WF db hsort tickers c hwf).2,
    fun t d hd => AccountingDateCacheCompositor.newEventDates_gt _ _ d hd, ?_⟩
  intro t hdb L hL
  constructor
  · rw [AccountingDateCacheCompositor.updateTicker_watermarks (db t).1 (db t).2 t c hdb L hL]
    exact alookup_aupsert_same _ _ _
  · exact AccountingDateCacheCompositor.getLast?_is_max
      (AccountingDateCacheCompositor.sorted_newEventDates (db t).1 _ (hsort t)) hL

theorem C8_witness :
    alookup "T" (AccountingDateCacheCompositor.updateTicker
      [((10 : ℕ), (⟨2019, 3⟩ : RDate)), (20, ⟨2020, 2⟩)] 20 "T"
      ⟨[], []⟩).watermarks = some 20 :=
  ((C8_append_only_and_watermark_advance
      (fun _ => ([((10 : ℕ), (⟨2019, 3⟩ : RDate)), (20, ⟨2020, 2⟩)], 20)) ["T"] ⟨[], []⟩
      (fun t d e h => by simp [alookup] at h)
      (fun _ => by
        show (([((10 : ℕ), (⟨2019, 3⟩ : RDate)), (20, ⟨2020, 2⟩)]).map
          fun r => r.1).Pairwise (· ≤ ·)
        decide)).2.2 "T" (by decide) 20 (by decide)).1

/-- C3 (amended): every entry the cache builder writes for a new event date
is stored under (entity, event date) and holds the current statement (the
most recent one as of the date) plus seven related-period lookups — prior
quarter, prior-prior quarter, prior year-end, year-ago same period, a slot
computed by the same prior-quarter lookup as q1, and the year-ends three
and five years back — each resolved as the most recent statement whose
report period exactly equals the target, absent when none exists. -/
theorem C3_amended_entry_resolution
    (rows : List AccountingDateCacheCompositor.StmtRow) (dbDate : ℕ) (t : String)
    (c : AccountingDateCacheCompositor.Cache) (d : ℕ) (e : DateCache)
    (hdb : (alookup t c.watermarks).getD 0 < dbDate)
    (hd : d ∈ AccountingDateCacheCompositor.newEventDates rows
      ((alookup t c.watermarks).getD 0))
    (he : AccountingDateCacheCompositor.computeEntry rows d = some e) :
    alookup (t, d) (AccountingDateCacheCompositor.updateTicker rows dbDate t c).entries
      = some e
    ∧ (rows.filter fun r => r.1 ≤ d).getLast? = some e.current
    ∧ e.q1 = AccountingDateCacheCompositor.lookupRP (rows.filter fun r => r.1 ≤ d)
        (ReportingDate.qoq_date e.current.2)
    ∧ e.q2 = AccountingDateCacheCompositor.lookupRP (rows.filter fun r => r.1 ≤ d)
        (ReportingDate.qoq_date (ReportingDate.qoq_date e.current.2))
    ∧ e.y1 = AccountingDateCacheCompositor.lookupRP (rows.filter fun r => r.1 ≤ d)
        (ReportingDate.yearly_dates_offset e.current.2 1)
    ∧ e.q4 = AccountingDateCacheCompositor.lookupRP (rows.filter fun r => r.1 ≤ d)
        (ReportingDate.yoy_date e.current.2)
    ∧ e.q5 = AccountingDateCacheCompositor.lookupRP (rows.filter fun r => r.1 ≤ d)
        (ReportingDate.qoq_date e.current.2)
    ∧ e.y3 = AccountingDateCacheCompositor.lookupRP (rows.filter fun r => r.1 ≤ d)
        (ReportingDate.yearly_dates_offset e.current.2 3)
    ∧ e.y5 = AccountingDateCacheCompositor.lookupRP (rows.filter fun r => r.1 ≤ d)
        (ReportingDate.yearly_dates_offset e.current.2 5) := by
  rcases Option.map_eq_some'.1 he with ⟨newest, hn, hfe⟩
  subst hfe
  refine ⟨?_, hn, rfl, rfl, rfl, rfl, rfl, rfl, rfl⟩
  rw [AccountingDateCacheCompositor.updateTicker_entries, if_pos hdb]
  exact AccountingDateCacheCompositor.entriesFold_lookup_mem rows t _ c d _
    (List.nodup_dedup _) hd he

theorem C3_witness :
    alookup ("T", 20) (AccountingDateCacheCompositor.updateTicker
      [((10 : ℕ), (⟨2019, 3⟩ : RDate)), (20, ⟨2020, 2⟩)] 20 "T" ⟨[], []⟩).entries
      = some ⟨(20, ⟨2020, 2⟩), none, none, some (10, ⟨2019, 3⟩), none, none, none, none⟩ :=
  (C3_amended_entry_resolution [((10 : ℕ), (⟨2019, 3⟩ : RDate)), (20, ⟨2020, 2⟩)] 20 "T"
    ⟨[], []⟩ 20 ⟨(20, ⟨2020, 2⟩), none, none, some (10, ⟨2019, 3⟩), none, none, none, none⟩
    (by decide) (by decide) (by decide)).1

theorem computeEntry_q5_eq_q1 (rows : List AccountingDateCacheCompositor.StmtRow)
    (d : ℕ) (e : DateCache)
    (h : AccountingDateCacheCompositor.computeEntry rows d = some e) : e.q5 = e.q1 := by
  rcases Option.map_eq_some'.1 h with ⟨newest, _, hfe⟩
  subst hfe
  rfl

/-- C10: every entry present after a run of the accounting-date cache
builder either was already present before the run or has its q5 slot equal
to its q1 slot: the source computes the 5-quarters-back component with
exactly the same prior-quarter lookup as the q1 component (source lines
229–232 and 241–244). -/
theorem C10_q5_equals_q1
    (db : String → List AccountingDateCacheCompositor.StmtRow × ℕ)
    (tickers : List String) (c : AccountingDateCacheCompositor.Cache)
    (k : String × ℕ) (e : DateCache)
    (hk : alookup k (AccountingDateCacheCompositor.update db tickers c).entries = some e) :
    alookup k c.entries = some e ∨ e.q5 = e.q1 := by
  induction tickers generalizing c with
  | nil => exact Or.inl hk
  | cons t ts ih =>
    rw [AccountingDateCacheCompositor.update_cons] at hk
    rcases ih _ hk with h1 | h1
    · rw [AccountingDateCacheCompositor.updateTicker_entries] at h1
      by_cases hc : (alookup t c.watermarks).getD 0 < (db t).2
      · rw [if_pos hc] at h1
        rcases AccountingDateCacheCompositor.entriesFold_lookup _ _ _ _ _ _ h1 with
          h2 | ⟨_, _, h3⟩
        · exact Or.inl h2
        · exact Or.inr (computeEntry_q5_eq_q1 _ _ _ h3)
      · rw [if_neg hc] at h1
        exact Or.inl h1
    · exact Or.inr h1

theorem C10_witness :
    alookup (("T", 20) : String × ℕ)
      (⟨[], []⟩ : AccountingDateCacheCompositor.Cache).entries
      = some (⟨(20, ⟨2020, 2⟩), none, none, some (10, ⟨2019, 3⟩), none, none, none,
          none⟩ : DateCache)
    ∨ (⟨(20, ⟨2020, 2⟩), none, none, some (10, ⟨2019, 3⟩), none, none, none,
        none⟩ : DateCache).q5
      = (⟨(20, ⟨2020, 2⟩), none, none, some (10, ⟨2019, 3⟩), none, none, none,
        none⟩ : DateCache).q1 :=
  C10_q5_equals_q1
    (fun _ => ([((10 : ℕ), (⟨2019, 3⟩ : RDate)), (20, ⟨2020, 2⟩)], 20)) ["T"] ⟨[], []⟩
    ("T", 20) ⟨(20, ⟨2020, 2⟩), none, none, some (10, ⟨2019, 3⟩), none, none, none, none⟩
    (by decide)
